import Mathlib

/-!
Verification of the baseline-tracking ETF monitor (etf_checker).

Shallow embedding of `src/etf_checker/app/etf_monitor.py`,
`src/etf_checker/app/storage.py` and `src/etf_checker/app/ha_client.py`.

Modelling conventions:
* Python `dict[str, float]` is an insertion-ordered association list
  (`Dict α`); `Dict.set` updates in place (keeping the original position)
  or appends, exactly like Python dict assignment, and `Dict.get` is
  `dict.get` returning `Option`.
* Finite IEEE-754 doubles are modelled as exact rationals (`ℚ`); the
  arithmetic the claims exercise (comparison, subtraction, division by a
  nonzero reference, multiplication by 100) is the same computation with
  exact numbers.
* Exceptions are modelled with `Except`/`Option`: a price provider that
  raises is `none`, a raising loader is `Except.error`.
-/

namespace EtfChecker

/-- Insertion-ordered association list modelling a Python `dict` with
string keys. -/
abbrev Dict (α : Type) := List (String × α)

/-- Python `d.get(k)`: the value of the first (unique) entry with key `k`. -/
def Dict.get {α : Type} (d : Dict α) (k : String) : Option α :=
  match d with
  | [] => none
  | (k', v) :: rest => if k' = k then some v else Dict.get rest k

/-- Python `k in d`. -/
def Dict.hasKey {α : Type} (d : Dict α) (k : String) : Bool :=
  (Dict.get d k).isSome

/-- Python `d[k] = v`: update the existing entry in place, else append. -/
def Dict.set {α : Type} (d : Dict α) (k : String) (v : α) : Dict α :=
  match d with
  | [] => [(k, v)]
  | (k', v') :: rest =>
      if k' = k then (k, v) :: rest else (k', v') :: Dict.set rest k v

/-- Function `percent_change` from `etf_monitor.py`: 0 when the reference is 0,
otherwise `((current - reference) / reference) * 100.0`. -/
def percent_change (reference current : ℚ) : ℚ :=
  if reference = 0 then 0 else ((current - reference) / reference) * 100

/-- Helper for `dedupFirst`: drop elements already seen. -/
def dedupFirstAux (seen : List String) : List String → List String
  | [] => []
  | s :: rest =>
      if s ∈ seen then dedupFirstAux seen rest
      else s :: dedupFirstAux (s :: seen) rest

/-- Python `list(dict.fromkeys(xs))`: deduplicate keeping the first
occurrence of each element, preserving order. -/
def dedupFirst (xs : List String) : List String :=
  dedupFirstAux [] xs

/-- Python `str.upper()`. The symbols and candidates this program
upper-cases are ASCII tickers, for which per-character upper-casing is
exactly Python's behaviour. -/
def pyUpper (s : String) : String :=
  String.mk (s.data.map Char.toUpper)

/-- Python `abs` on a number: the magnitude. Stated directly so that it
evaluates by kernel reduction; `pyAbs_eq_abs` links it to `|q|`. -/
def pyAbs (q : ℚ) : ℚ :=
  if q < 0 then -q else q

/-- One breach record from `run_once`: the tuple
`(symbol, baseline, current_price, change)` appended to `alerts`. -/
structure Alert where
  symbol : String
  baseline : ℚ
  current : ℚ
  change : ℚ
deriving DecidableEq

/-- The per-symbol loop of `run_once` (lines 354-362 of
`etf_monitor.py`): for each fetched `(symbol, current_price)`, seed the
baseline when absent; otherwise on `abs(change) >= threshold` append an
alert and rebase the baseline to the current price. -/
def processPrices (threshold : ℚ) :
    List (String × ℚ) → Dict ℚ → List Alert → (Dict ℚ × List Alert)
  | [], baselines, alerts => (baselines, alerts)
  | (symbol, current) :: rest, baselines, alerts =>
    match Dict.get baselines symbol with
    | none => processPrices threshold rest (Dict.set baselines symbol current) alerts
    | some baseline =>
      let change := percent_change baseline current
      if pyAbs change ≥ threshold then
        processPrices threshold rest (Dict.set baselines symbol current)
          (alerts ++ [⟨symbol, baseline, current, change⟩])
      else
        processPrices threshold rest baselines alerts

/-- The configuration fields `run_once` reads:
`config.ui.etf_symbols` and `config.ui.threshold_percent`. -/
structure EffectiveConfig where
  etf_symbols : List String
  threshold_percent : ℚ
deriving DecidableEq

/-- Observable outcome of one `run_once` call: the monitor's baseline
record afterwards, the alerts accumulated for notification, whether the
price provider was invoked, and whether `save_state` was called. -/
structure CycleResult where
  baselines : Dict ℚ
  alerts : List Alert
  fetchAttempted : Bool
  saved : Bool
deriving DecidableEq

/-- Method `EtfMonitor.run_once`. The price provider is a pure function; `none`
models the provider raising an exception. Deduplicated empty symbol set:
return before fetching. Provider exception or empty price map: abort with
the baselines untouched and nothing saved. Otherwise run the per-symbol
loop and save once. -/
def run_once (config : EffectiveConfig)
    (provider : List String → Option (List (String × ℚ)))
    (baselines : Dict ℚ) : CycleResult :=
  let symbols := dedupFirst config.etf_symbols
  if symbols.isEmpty then
    ⟨baselines, [], false, false⟩
  else
    match provider symbols with
    | none => ⟨baselines, [], true, false⟩
    | some prices =>
      if prices.isEmpty then
        ⟨baselines, [], true, false⟩
      else
        let r := processPrices config.threshold_percent prices baselines []
        ⟨r.1, r.2, true, true⟩

/-- The fields of `HomeAssistantClient` that decide configuration. -/
structure HomeAssistantClient where
  base_url : String
  token : String
  notify_service : String
deriving DecidableEq

/-- Method `HomeAssistantClient.is_configured`: all three fields non-empty
(Python truthiness of strings). -/
def HomeAssistantClient.is_configured (c : HomeAssistantClient) : Bool :=
  !(c.base_url = "") && !(c.token = "") && !(c.notify_service = "")

/-- Number of `send_notification` calls made by the notification loop at
the end of `run_once`: `_notify` is called once per alert and skips the
send when the client is not configured. -/
def notifyCount (client : HomeAssistantClient) (alerts : List Alert) : Nat :=
  if client.is_configured then alerts.length else 0

/-! Storage (`storage.py`): JSON state file, `_load_json`, `load_state`,
`save_state`. -/

/-- JSON documents, as produced by Python's `json` module. Numbers are
modelled as exact rationals. -/
inductive Json where
  | null : Json
  | bool (b : Bool) : Json
  | num (q : ℚ) : Json
  | str (s : String) : Json
  | arr (items : List Json) : Json
  | obj (fields : List (String × Json)) : Json

/-- Contents of the state file at `STATE_PATH`: absent, present but not
valid JSON, or a parsed JSON document. -/
inductive FileState where
  | missing : FileState
  | corrupt : FileState
  | json (doc : Json) : FileState

/-- Function `_load_json` from `storage.py`: `{}` when the file does not exist,
otherwise `json.load(handle)` — which raises `JSONDecodeError` (modelled
as `Except.error`) when the file is not valid JSON. -/
def _load_json (file : FileState) : Except String Json :=
  match file with
  | FileState.missing => Except.ok (Json.obj [])
  | FileState.corrupt => Except.error "JSONDecodeError"
  | FileState.json doc => Except.ok doc

/-- Python `float(value)` on a JSON value: numbers coerce to themselves,
booleans to 0/1, numeric strings parse (modelled for plain decimal
literals with optional sign and fraction; exponents and inf/nan forms are
not needed by any claim), everything else raises (`none`). -/
def pyFloat (v : Json) : Option ℚ :=
  match v with
  | Json.num q => some q
  | Json.bool b => some (if b then 1 else 0)
  | Json.str s =>
      let core : Bool × List Char :=
        match s.data with
        | '-' :: rest => (true, rest)
        | '+' :: rest => (false, rest)
        | cs => (false, cs)
      let intPart := core.2.takeWhile Char.isDigit
      let tail := core.2.dropWhile Char.isDigit
      let digitsVal : List Char → ℚ :=
        fun cs => ((cs.foldl (fun acc c => acc * 10 + (c.toNat - 48)) 0 : ℕ) : ℚ)
      let mag : Option ℚ :=
        match tail with
        | [] => if intPart.isEmpty then none else some (digitsVal intPart)
        | '.' :: frac =>
            if frac.all Char.isDigit && !(intPart.isEmpty && frac.isEmpty) then
              some (digitsVal intPart + digitsVal frac / (10 : ℚ) ^ frac.length)
            else none
        | _ => none
      mag.map (fun q => if core.1 then -q else q)
  | _ => none

/-- One iteration of the cleaning loop of `load_state`: keep
`str(symbol).upper() -> float(value)`, silently skipping an entry whose
value fails float coercion. -/
def cleanStep (acc : Dict ℚ) (kv : String × Json) : Dict ℚ :=
  match pyFloat kv.2 with
  | some q => Dict.set acc (pyUpper kv.1) q
  | none => acc

/-- The cleaning loop of `load_state` over the raw `baselines` entries. -/
def cleanBaselines (entries : List (String × Json)) : Dict ℚ :=
  entries.foldl cleanStep []

/-- Function `load_state` from `storage.py`: parse the file with `_load_json`
(exceptions propagate), read `raw.get("baselines", {})` (a non-dict
top-level JSON value makes `raw.get` raise `AttributeError`), keep the
cleaned entries when the `baselines` value is a dict and an empty record
otherwise. -/
def load_state (file : FileState) : Except String (Dict ℚ) :=
  match _load_json file with
  | Except.error e => Except.error e
  | Except.ok (Json.obj fields) =>
      match (Dict.get fields "baselines").getD (Json.obj []) with
      | Json.obj entries => Except.ok (cleanBaselines entries)
      | _ => Except.ok []
  | Except.ok _ => Except.error "AttributeError"

/-- Function `save_state` from `storage.py`: write the document
`{"baselines": {symbol: price, ...}}` for the current record. Directory
creation and file I/O are not modelled; the claims concern the document
written. -/
def save_state (state : Dict ℚ) : FileState :=
  FileState.json
    (Json.obj [("baselines", Json.obj (state.map (fun kv => (kv.1, Json.num kv.2))))])

/-! Exchange-suffix fallback (`_fetch_prices_with_suffixes`,
`etf_monitor.py` lines 222-242). The fetcher argument is pure; to settle
the claim about which candidates it is queried with, the loop also
returns the list of argument lists passed to the fetcher and the final
still-missing symbols. -/

/-- One round's `lookup` dict comprehension:
`{symbol: symbol+suffix for symbol in symbols if "." not in symbol}`
(for a single-character needle, Python substring membership is character
membership). -/
def suffixLookup (symbols : List String) (suffix : String) : List (String × String) :=
  (symbols.filter (fun s => !(s.data.contains '.'))).map (fun s => (s, s ++ suffix))

/-- One round's harvesting loop: for each `(original, candidate)` pair in
order, skip originals already mapped, otherwise record
`fetched.get(candidate.upper())` when present. -/
def applyFetched (fetched : Dict ℚ) :
    List (String × String) → Dict ℚ → Dict ℚ
  | [], mapped => mapped
  | kv :: rest, mapped =>
      applyFetched fetched rest
        (if Dict.hasKey mapped kv.1 then mapped
         else
           match Dict.get fetched (pyUpper kv.2) with
           | some price => Dict.set mapped kv.1 price
           | none => mapped)

/-- The suffix loop: iterate the suffix list; skip a suffix when no
dot-free symbol remains (`if not lookup: continue`); otherwise query the
fetcher with the candidates, harvest, drop resolved symbols, and break
when none remain. Returns (mapped prices, fetcher query lists, final
still-missing symbols). -/
def suffixLoop (fetcher : List String → Dict ℚ) :
    List String → Dict ℚ → List String → (Dict ℚ × List (List String) × List String)
  | [], mapped, symbols => (mapped, [], symbols)
  | suffix :: rest, mapped, symbols =>
      let lookup := suffixLookup symbols suffix
      if lookup.isEmpty then suffixLoop fetcher rest mapped symbols
      else
        let fetched := fetcher (lookup.map Prod.snd)
        let mapped' := applyFetched fetched lookup mapped
        let remaining := symbols.filter (fun s => !(Dict.hasKey mapped' s))
        if remaining.isEmpty then (mapped', [lookup.map Prod.snd], [])
        else
          let r := suffixLoop fetcher rest mapped' remaining
          (r.1, lookup.map Prod.snd :: r.2.1, r.2.2)

/-- Function `_fetch_prices_with_suffixes`: immediately empty for no symbols,
otherwise the suffix loop starting from an empty `mapped` dict. -/
def _fetch_prices_with_suffixes (symbols : List String) (suffixes : List String)
    (fetcher : List String → Dict ℚ) : Dict ℚ × List (List String) × List String :=
  if symbols.isEmpty then ([], [], [])
  else suffixLoop fetcher suffixes [] symbols

/-- Specification of the suffix-fallback procedure, transcribed from the
claim (spec document section 4.1 step 5): with an ordered list of
remaining suffixes and the current still-missing symbol list, the
procedure issues no further query when the suffix list is exhausted or no
still-missing symbol is queryable (every one already contains a '.' — a
symbol carrying an exchange suffix is never extended); otherwise it
issues, for the first suffix, exactly one query consisting of every
still-missing dot-free symbol with that suffix appended, a symbol counts
as resolved exactly when the fetch returned a price for its upper-cased
candidate, the procedure stops at once when every symbol is resolved, and
otherwise continues with the remaining suffixes, in order, against the
new still-missing list. `SuffixSpec fetcher suffixes missing queries
final` holds when the procedure started on `suffixes` and `missing`
issues exactly the query lists `queries`, in that order, and ends with
`final` still missing. -/
inductive SuffixSpec (fetcher : List String → Dict ℚ) :
    List String → List String → List (List String) → List String → Prop where
  | exhausted (missing : List String) :
      SuffixSpec fetcher [] missing [] missing
  | noCandidates (suffixes : List String) (missing : List String)
      (hdot : missing.filter (fun s => !(s.data.contains '.')) = []) :
      SuffixSpec fetcher suffixes missing [] missing
  | lastQuery (suffix : String) (rest : List String) (missing : List String)
      (hcand : missing.filter (fun s => !(s.data.contains '.')) ≠ [])
      (hresolved : missing.filter (fun s => s.data.contains '.'
          || (Dict.get (fetcher ((missing.filter (fun t => !(t.data.contains '.'))).map
                (fun t => t ++ suffix))) (pyUpper (s ++ suffix))).isNone) = []) :
      SuffixSpec fetcher (suffix :: rest) missing
        [(missing.filter (fun t => !(t.data.contains '.'))).map (fun t => t ++ suffix)] []
  | nextQuery (suffix : String) (rest : List String) (missing : List String)
      (queries : List (List String)) (final : List String)
      (hcand : missing.filter (fun s => !(s.data.contains '.')) ≠ [])
      (hleft : missing.filter (fun s => s.data.contains '.'
          || (Dict.get (fetcher ((missing.filter (fun t => !(t.data.contains '.'))).map
                (fun t => t ++ suffix))) (pyUpper (s ++ suffix))).isNone) ≠ [])
      (hrest : SuffixSpec fetcher rest
          (missing.filter (fun s => s.data.contains '.'
            || (Dict.get (fetcher ((missing.filter (fun t => !(t.data.contains '.'))).map
                  (fun t => t ++ suffix))) (pyUpper (s ++ suffix))).isNone))
          queries final) :
      SuffixSpec fetcher (suffix :: rest) missing
        (((missing.filter (fun t => !(t.data.contains '.'))).map (fun t => t ++ suffix))
          :: queries) final

/-! Home Assistant service-id parsing
(`HomeAssistantClient._split_service`, `ha_client.py` lines 38-48). -/

/-- Python `s.split(sep, 1)` when `sep in s`: the characters before the
first occurrence and the characters after it; `none` when absent. -/
def splitAtFirst (sep : Char) : List Char → Option (List Char × List Char)
  | [] => none
  | c :: rest =>
      if c = sep then some ([], rest)
      else
        match splitAtFirst sep rest with
        | none => none
        | some (l, r) => some (c :: l, r)

/-- Method `_split_service`: split at the first `/` when one occurs, else at the
first `.` when one occurs, else raise `ValueError`. -/
def _split_service (service : String) : Except String (String × String) :=
  match splitAtFirst '/' service.data with
  | some (d, s) => Except.ok (String.mk d, String.mk s)
  | none =>
      match splitAtFirst '.' service.data with
      | some (d, s) => Except.ok (String.mk d, String.mk s)
      | none => Except.error "ValueError"

/-! The `EtfMonitor.state` property (`etf_monitor.py` lines 308-311)
returns `MonitorState(baselines=dict(self._state.baselines))`. Whether
the returned mapping aliases the internal one is an object-identity
question, so dict objects are placed on an explicit heap of addresses. -/

/-- Heap of dict objects, addressed by `Nat`. -/
abbrev Heap := List (Nat × Dict ℚ)

/-- Contents of the object at an address. -/
def heapGet (h : Heap) (a : Nat) : Option (Dict ℚ) :=
  match h with
  | [] => none
  | (a', d) :: rest => if a' = a then some d else heapGet rest a

/-- Replace (or create) the object at an address; models in-place
mutation of a dict object. -/
def heapSet (h : Heap) (a : Nat) (d : Dict ℚ) : Heap :=
  match h with
  | [] => [(a, d)]
  | (a', d') :: rest =>
      if a' = a then (a, d) :: rest else (a', d') :: heapSet rest a d

/-- An address not used by any object on the heap. -/
def freshAddr (h : Heap) : Nat :=
  (h.map Prod.fst).foldr max 0 + 1

/-- The `state` property: `dict(self._state.baselines)` allocates a new
dict object holding a copy of the internal baselines (at `monitor`) and
returns its address. -/
def state_snapshot (h : Heap) (monitor : Nat) : Heap × Nat :=
  match heapGet h monitor with
  | none => (h, monitor)
  | some d => (heapSet h (freshAddr h) d, freshAddr h)

/-! Helper lemmas. -/

theorem pyAbs_eq_abs (q : ℚ) : pyAbs q = |q| := by
  unfold pyAbs
  rcases lt_or_le q 0 with h | h
  · rw [if_pos h, abs_of_neg h]
  · rw [if_neg (not_lt.mpr h), abs_of_nonneg h]

theorem Dict.get_set_self {α : Type} (d : Dict α) (k : String) (v : α) :
    Dict.get (Dict.set d k v) k = some v := by
  induction d with
  | nil => simp [Dict.set, Dict.get]
  | cons kv rest ih =>
    obtain ⟨k', v'⟩ := kv
    by_cases h : k' = k <;> simp [Dict.set, Dict.get, h, ih]

theorem Dict.get_set_ne {α : Type} (d : Dict α) (k k' : String) (v : α)
    (h : k ≠ k') : Dict.get (Dict.set d k v) k' = Dict.get d k' := by
  induction d with
  | nil => simp [Dict.set, Dict.get, h]
  | cons kv rest ih =>
    obtain ⟨k₀, v₀⟩ := kv
    by_cases h0 : k₀ = k
    · subst h0
      simp [Dict.set, Dict.get, h]
    · simp [Dict.set, Dict.get, h0, ih]

theorem Dict.set_eq_append {α : Type} (d : Dict α) (k : String) (v : α)
    (h : Dict.get d k = none) : Dict.set d k v = d ++ [(k, v)] := by
  induction d with
  | nil => simp [Dict.set]
  | cons kv rest ih =>
    obtain ⟨k₀, v₀⟩ := kv
    by_cases h0 : k₀ = k
    · simp [Dict.get, h0] at h
    · simp [Dict.get, h0] at h
      simp [Dict.set, h0, ih h]

theorem Dict.get_append_left {α : Type} (d d' : Dict α) (k : String) (v : α)
    (h : Dict.get d k = some v) :
    Dict.get (d ++ d') k = some v := by
  induction d with
  | nil => simp [Dict.get] at h
  | cons kv rest ih =>
    obtain ⟨k₀, v₀⟩ := kv
    by_cases h0 : k₀ = k
    · simp [Dict.get, h0] at h ⊢
      exact h
    · simp [Dict.get, h0] at h ⊢
      exact ih h

/-- Alerts already accumulated survive the rest of the loop. -/
theorem processPrices_alert_mono (threshold : ℚ) (ps : List (String × ℚ))
    (bs : Dict ℚ) (as : List Alert) (a : Alert) (h : a ∈ as) :
    a ∈ (processPrices threshold ps bs as).2 := by
  induction ps generalizing bs as with
  | nil => exact h
  | cons p rest ih =>
    obtain ⟨s, c⟩ := p
    rw [processPrices]
    cases hb : Dict.get bs s with
    | none => exact ih _ _ h
    | some b =>
      dsimp only
      by_cases hbr : pyAbs (percent_change b c) ≥ threshold
      · rw [if_pos hbr]
        exact ih _ _ (List.mem_append_left _ h)
      · rw [if_neg hbr]
        exact ih _ _ h

/-- Every alert was either already accumulated or concerns a fetched
symbol. -/
theorem processPrices_alert_source (threshold : ℚ) (ps : List (String × ℚ))
    (bs : Dict ℚ) (as : List Alert) (a : Alert)
    (h : a ∈ (processPrices threshold ps bs as).2) :
    a ∈ as ∨ a.symbol ∈ ps.map Prod.fst := by
  induction ps generalizing bs as with
  | nil => exact Or.inl h
  | cons p rest ih =>
    obtain ⟨s, c⟩ := p
    rw [processPrices] at h
    cases hb : Dict.get bs s with
    | none =>
      rw [hb] at h
      rcases ih _ _ h with h' | h'
      · exact Or.inl h'
      · exact Or.inr (List.mem_cons_of_mem _ h')
    | some b =>
      rw [hb] at h
      dsimp only at h
      by_cases hbr : pyAbs (percent_change b c) ≥ threshold
      · rw [if_pos hbr] at h
        rcases ih _ _ h with h' | h'
        · rcases List.mem_append.mp h' with h'' | h''
          · exact Or.inl h''
          · rcases List.mem_singleton.mp h''
            exact Or.inr (List.mem_cons_self _ _)
        · exact Or.inr (List.mem_cons_of_mem _ h')
      · rw [if_neg hbr] at h
        rcases ih _ _ h with h' | h'
        · exact Or.inl h'
        · exact Or.inr (List.mem_cons_of_mem _ h')

/-- The loop never touches the baseline of a symbol that was not
fetched. -/
theorem processPrices_get_stable (threshold : ℚ) (ps : List (String × ℚ))
    (bs : Dict ℚ) (as : List Alert) (symbol : String)
    (h : symbol ∉ ps.map Prod.fst) :
    Dict.get (processPrices threshold ps bs as).1 symbol = Dict.get bs symbol := by
  induction ps generalizing bs as with
  | nil => rfl
  | cons p rest ih =>
    obtain ⟨s, c⟩ := p
    have hs : s ≠ symbol := by
      intro hs
      exact h (by simp [hs])
    have hrest : symbol ∉ rest.map Prod.fst := by
      intro h'
      exact h (by simp [h'])
    rw [processPrices]
    cases hb : Dict.get bs s with
    | none =>
      rw [ih _ _ hrest, Dict.get_set_ne _ _ _ _ hs]
    | some b =>
      dsimp only
      by_cases hbr : pyAbs (percent_change b c) ≥ threshold
      · rw [if_pos hbr, ih _ _ hrest, Dict.get_set_ne _ _ _ _ hs]
      · rw [if_neg hbr, ih _ _ hrest]

/-- Breach case of the loop: a fetched symbol with a baseline whose
absolute percent change reaches the threshold gets its exact alert
recorded and its baseline rebased to the fetched price. -/
theorem processPrices_breach (threshold : ℚ) (ps : List (String × ℚ))
    (bs : Dict ℚ) (as : List Alert) (symbol : String) (price b : ℚ)
    (hnodup : (ps.map Prod.fst).Nodup)
    (hmem : (symbol, price) ∈ ps)
    (hb : Dict.get bs symbol = some b)
    (hth : threshold ≤ pyAbs (percent_change b price)) :
    (⟨symbol, b, price, percent_change b price⟩ : Alert) ∈ (processPrices threshold ps bs as).2
    ∧ Dict.get (processPrices threshold ps bs as).1 symbol = some price := by
  induction ps generalizing bs as with
  | nil => cases hmem
  | cons p rest ih =>
    obtain ⟨s, c⟩ := p
    rcases List.mem_cons.mp hmem with heq | hrest
    · obtain ⟨rfl, rfl⟩ := Prod.mk.injEq .. ▸ heq
      have hnd := hnodup
      rw [List.map_cons, List.nodup_cons] at hnd
      have hnot : symbol ∉ rest.map Prod.fst := hnd.1
      rw [processPrices, hb]
      dsimp only
      rw [if_pos (ge_iff_le.mpr hth)]
      constructor
      · exact processPrices_alert_mono _ _ _ _ _ (by simp)
      · rw [processPrices_get_stable _ _ _ _ _ hnot, Dict.get_set_self]
    · have hsym_rest : symbol ∈ rest.map Prod.fst :=
        List.mem_map.mpr ⟨(symbol, price), hrest, rfl⟩
      have hnd := hnodup
      rw [List.map_cons, List.nodup_cons] at hnd
      have hs : s ≠ symbol := by
        intro hs
        subst hs
        exact hnd.1 hsym_rest
      have hnodup' : (rest.map Prod.fst).Nodup := hnd.2
      rw [processPrices]
      cases hbs : Dict.get bs s with
      | none =>
        exact ih _ _ hnodup' hrest (by rw [Dict.get_set_ne _ _ _ _ hs]; exact hb)
      | some b' =>
        dsimp only
        by_cases hbr : pyAbs (percent_change b' c) ≥ threshold
        · rw [if_pos hbr]
          exact ih _ _ hnodup' hrest (by rw [Dict.get_set_ne _ _ _ _ hs]; exact hb)
        · rw [if_neg hbr]
          exact ih _ _ hnodup' hrest hb

/-- Non-breach case of the loop: a fetched symbol with a baseline whose
absolute percent change stays below the threshold gets no alert and
keeps its baseline. -/
theorem processPrices_no_breach (threshold : ℚ) (ps : List (String × ℚ))
    (bs : Dict ℚ) (as : List Alert) (symbol : String) (price b : ℚ)
    (hnodup : (ps.map Prod.fst).Nodup)
    (hmem : (symbol, price) ∈ ps)
    (hb : Dict.get bs symbol = some b)
    (hth : pyAbs (percent_change b price) < threshold)
    (has : ∀ a ∈ as, a.symbol ≠ symbol) :
    (∀ a ∈ (processPrices threshold ps bs as).2, a.symbol ≠ symbol)
    ∧ Dict.get (processPrices threshold ps bs as).1 symbol = some b := by
  induction ps generalizing bs as with
  | nil => cases hmem
  | cons p rest ih =>
    obtain ⟨s, c⟩ := p
    rcases List.mem_cons.mp hmem with heq | hrest
    · obtain ⟨rfl, rfl⟩ := Prod.mk.injEq .. ▸ heq
      have hnd := hnodup
      rw [List.map_cons, List.nodup_cons] at hnd
      have hnot : symbol ∉ rest.map Prod.fst := hnd.1
      rw [processPrices, hb]
      dsimp only
      rw [if_neg (by exact fun hge => absurd hth (not_lt.mpr hge))]
      constructor
      · intro a ha
        rcases processPrices_alert_source _ _ _ _ _ ha with h' | h'
        · exact has a h'
        · intro he
          rw [he] at h'
          exact hnot h'
      · rw [processPrices_get_stable _ _ _ _ _ hnot]
        exact hb
    · have hsym_rest : symbol ∈ rest.map Prod.fst :=
        List.mem_map.mpr ⟨(symbol, price), hrest, rfl⟩
      have hnd := hnodup
      rw [List.map_cons, List.nodup_cons] at hnd
      have hs : s ≠ symbol := by
        intro hs
        subst hs
        exact hnd.1 hsym_rest
      have hnodup' : (rest.map Prod.fst).Nodup := hnd.2
      rw [processPrices]
      cases hbs : Dict.get bs s with
      | none =>
        exact ih _ _ hnodup' hrest (by rw [Dict.get_set_ne _ _ _ _ hs]; exact hb) has
      | some b' =>
        dsimp only
        by_cases hbr : pyAbs (percent_change b' c) ≥ threshold
        · rw [if_pos hbr]
          refine ih _ _ hnodup' hrest (by rw [Dict.get_set_ne _ _ _ _ hs]; exact hb) ?_
          intro a ha
          rcases List.mem_append.mp ha with h' | h'
          · exact has a h'
          · rcases List.mem_singleton.mp h'
            exact hs
        · rw [if_neg hbr]
          exact ih _ _ hnodup' hrest hb has

/-- Seeding case of the loop: a fetched symbol without a baseline gets
its baseline seeded to the fetched price and no alert. -/
theorem processPrices_seed (threshold : ℚ) (ps : List (String × ℚ))
    (bs : Dict ℚ) (as : List Alert) (symbol : String) (price : ℚ)
    (hnodup : (ps.map Prod.fst).Nodup)
    (hmem : (symbol, price) ∈ ps)
    (hb : Dict.get bs symbol = none)
    (has : ∀ a ∈ as, a.symbol ≠ symbol) :
    (∀ a ∈ (processPrices threshold ps bs as).2, a.symbol ≠ symbol)
    ∧ Dict.get (processPrices threshold ps bs as).1 symbol = some price := by
  induction ps generalizing bs as with
  | nil => cases hmem
  | cons p rest ih =>
    obtain ⟨s, c⟩ := p
    rcases List.mem_cons.mp hmem with heq | hrest
    · obtain ⟨rfl, rfl⟩ := Prod.mk.injEq .. ▸ heq
      have hnd := hnodup
      rw [List.map_cons, List.nodup_cons] at hnd
      have hnot : symbol ∉ rest.map Prod.fst := hnd.1
      rw [processPrices, hb]
      constructor
      · intro a ha
        rcases processPrices_alert_source _ _ _ _ _ ha with h' | h'
        · exact has a h'
        · intro he
          rw [he] at h'
          exact hnot h'
      · rw [processPrices_get_stable _ _ _ _ _ hnot, Dict.get_set_self]
    · have hsym_rest : symbol ∈ rest.map Prod.fst :=
        List.mem_map.mpr ⟨(symbol, price), hrest, rfl⟩
      have hnd := hnodup
      rw [List.map_cons, List.nodup_cons] at hnd
      have hs : s ≠ symbol := by
        intro hs
        subst hs
        exact hnd.1 hsym_rest
      have hnodup' : (rest.map Prod.fst).Nodup := hnd.2
      rw [processPrices]
      cases hbs : Dict.get bs s with
      | none =>
        exact ih _ _ hnodup' hrest (by rw [Dict.get_set_ne _ _ _ _ hs]; exact hb) has
      | some b' =>
        dsimp only
        by_cases hbr : pyAbs (percent_change b' c) ≥ threshold
        · rw [if_pos hbr]
          refine ih _ _ hnodup' hrest (by rw [Dict.get_set_ne _ _ _ _ hs]; exact hb) ?_
          intro a ha
          rcases List.mem_append.mp ha with h' | h'
          · exact has a h'
          · rcases List.mem_singleton.mp h'
            exact hs
        · rw [if_neg hbr]
          exact ih _ _ hnodup' hrest hb has

/-- When the symbol set is nonempty and the provider returns a nonempty
price map, `run_once` runs the per-symbol loop and saves. -/
theorem run_once_fetch_eq (config : EffectiveConfig)
    (provider : List String → Option (List (String × ℚ)))
    (baselines : Dict ℚ) (prices : List (String × ℚ))
    (hsym : dedupFirst config.etf_symbols ≠ [])
    (hprov : provider (dedupFirst config.etf_symbols) = some prices)
    (hne : prices ≠ []) :
    run_once config provider baselines =
      ⟨(processPrices config.threshold_percent prices baselines []).1,
       (processPrices config.threshold_percent prices baselines []).2, true, true⟩ := by
  have h1 : (dedupFirst config.etf_symbols).isEmpty = false := by
    cases hd : dedupFirst config.etf_symbols with
    | nil => exact absurd hd hsym
    | cons a l => rfl
  have h2 : prices.isEmpty = false := by
    cases hd : prices with
    | nil => exact absurd hd hne
    | cons a l => rfl
  simp [run_once, h1, hprov, h2]

/-! Claim theorems. -/

/-- C1: In an evaluation cycle (`run_once`), for every symbol in the
fetched price map that already has a baseline, an alert is recorded and
the baseline is rebased to the current price if and only if the absolute
percent change from the baseline is greater than or equal to the
configured threshold; the comparison is `>=`, so a change exactly equal
to the threshold counts as a breach. -/
theorem run_once_breach_iff (config : EffectiveConfig)
    (provider : List String → Option (List (String × ℚ)))
    (baselines : Dict ℚ) (prices : List (String × ℚ))
    (symbol : String) (price b : ℚ)
    (hsym : dedupFirst config.etf_symbols ≠ [])
    (hprov : provider (dedupFirst config.etf_symbols) = some prices)
    (hnodup : (prices.map Prod.fst).Nodup)
    (hmem : (symbol, price) ∈ prices)
    (hb : Dict.get baselines symbol = some b) :
    ((∃ a ∈ (run_once config provider baselines).alerts, a.symbol = symbol)
        ∧ Dict.get (run_once config provider baselines).baselines symbol = some price)
      ↔ config.threshold_percent ≤ |percent_change b price| := by
  have hne : prices ≠ [] := by
    rintro rfl
    cases hmem
  rw [run_once_fetch_eq config provider baselines prices hsym hprov hne]
  dsimp only
  rw [← pyAbs_eq_abs]
  constructor
  · rintro ⟨⟨a, ha, hasym⟩, hget⟩
    by_contra hlt
    push_neg at hlt
    have h := processPrices_no_breach config.threshold_percent prices baselines []
      symbol price b hnodup hmem hb hlt (by intro a ha; cases ha)
    exact (h.1 a ha) hasym
  · intro hth
    have h := processPrices_breach config.threshold_percent prices baselines []
      symbol price b hnodup hmem hb hth
    exact ⟨⟨_, h.1, rfl⟩, h.2⟩

/-- Witness for `run_once_breach_iff`, at the inclusive boundary: with
threshold 2% and a move from 100 to 102 (exactly +2%), the alert fires
and the baseline rebases to 102. -/
theorem run_once_breach_iff_witness :
    (∃ a ∈ (run_once ⟨["ACME"], 2⟩ (fun _ => some [("ACME", 102)]) [("ACME", 100)]).alerts,
        a.symbol = "ACME")
    ∧ Dict.get (run_once ⟨["ACME"], 2⟩ (fun _ => some [("ACME", 102)]) [("ACME", 100)]).baselines
        "ACME" = some 102 := by
  have hpc : percent_change 100 102 = 2 := by
    rw [percent_change]
    norm_num
  refine (run_once_breach_iff ⟨["ACME"], 2⟩ (fun _ => some [("ACME", 102)])
      [("ACME", 100)] [("ACME", 102)] "ACME" 102 100
      (by decide) rfl (by decide) (List.mem_singleton.mpr rfl)
      (by simp [Dict.get])).mpr ?_
  rw [hpc]
  norm_num

/-- C3: For every symbol with no existing baseline entry, the first cycle
in which a price is returned for it sets its baseline to that observed
price and records no alert for it, regardless of the price value or the
threshold. -/
theorem run_once_first_sight (config : EffectiveConfig)
    (provider : List String → Option (List (String × ℚ)))
    (baselines : Dict ℚ) (prices : List (String × ℚ))
    (symbol : String) (price : ℚ)
    (hsym : dedupFirst config.etf_symbols ≠ [])
    (hprov : provider (dedupFirst config.etf_symbols) = some prices)
    (hnodup : (prices.map Prod.fst).Nodup)
    (hmem : (symbol, price) ∈ prices)
    (hb : Dict.get baselines symbol = none) :
    Dict.get (run_once config provider baselines).baselines symbol = some price
    ∧ ∀ a ∈ (run_once config provider baselines).alerts, a.symbol ≠ symbol := by
  have hne : prices ≠ [] := by
    rintro rfl
    cases hmem
  rw [run_once_fetch_eq config provider baselines prices hsym hprov hne]
  dsimp only
  have h := processPrices_seed config.threshold_percent prices baselines []
    symbol price hnodup hmem hb (by intro a ha; cases ha)
  exact ⟨h.2, h.1⟩

/-- Witness for `run_once_first_sight`: a first observation of NEWX at
price 55 with threshold 2% seeds the baseline and triggers nothing. -/
theorem run_once_first_sight_witness :
    Dict.get (run_once ⟨["NEWX"], 2⟩ (fun _ => some [("NEWX", 55)]) []).baselines
        "NEWX" = some 55
    ∧ ∀ a ∈ (run_once ⟨["NEWX"], 2⟩ (fun _ => some [("NEWX", 55)]) []).alerts,
        a.symbol ≠ "NEWX" :=
  run_once_first_sight ⟨["NEWX"], 2⟩ (fun _ => some [("NEWX", 55)]) [] [("NEWX", 55)]
    "NEWX" 55 (by decide) rfl (by decide) (List.mem_singleton.mpr rfl) rfl

/-- C2: Starting from no baseline with threshold 2.0%, three cycles
observing 100.0, 103.0 and 106.5 seed the baseline at 100 with no alert,
then fire an alert at +3.0% rebasing to 103, then fire a second alert at
+350/103 % (≈ 3.398%) rebasing to 106.5; a configured client receives
exactly two notifications in total. -/
theorem run_once_three_cycle_scenario :
    let cfg : EffectiveConfig := ⟨["SWDA.MI"], 2⟩
    let r1 := run_once cfg (fun _ => some [("SWDA.MI", 100)]) []
    let r2 := run_once cfg (fun _ => some [("SWDA.MI", 103)]) r1.baselines
    let r3 := run_once cfg (fun _ => some [("SWDA.MI", 213/2)]) r2.baselines
    let client : HomeAssistantClient :=
      ⟨"http://homeassistant.local:8123", "token", "notify/mobile_app_phone"⟩
    r1.baselines = [("SWDA.MI", 100)] ∧ r1.alerts = [] ∧
    r2.alerts = [⟨"SWDA.MI", 100, 103, 3⟩] ∧ r2.baselines = [("SWDA.MI", 103)] ∧
    r3.alerts = [⟨"SWDA.MI", 103, 213/2, 350/103⟩] ∧ r3.baselines = [("SWDA.MI", 213/2)] ∧
    notifyCount client r1.alerts + notifyCount client r2.alerts
      + notifyCount client r3.alerts = 2 := by
  norm_num [run_once, processPrices, Dict.get, Dict.set, dedupFirst, dedupFirstAux,
    percent_change, pyAbs, notifyCount, HomeAssistantClient.is_configured]
  decide

/-- C4: `percent_change(reference, current)` returns 0 when the reference
is 0 and `(current - reference) / reference * 100` otherwise. -/
theorem percent_change_spec (reference current : ℚ) :
    (reference = 0 → percent_change reference current = 0)
    ∧ (reference ≠ 0 →
        percent_change reference current = (current - reference) / reference * 100) := by
  constructor
  · intro h
    rw [percent_change, if_pos h]
  · intro h
    rw [percent_change, if_neg h]

/-- Witness for `percent_change_spec` at reference 0 and at 100 → 110. -/
theorem percent_change_spec_witness :
    percent_change 0 110 = 0
    ∧ percent_change 100 110 = (110 - 100) / 100 * 100 :=
  ⟨(percent_change_spec 0 110).1 rfl, (percent_change_spec 100 110).2 (by norm_num)⟩

/-- C5: A cycle whose provider raises, or returns an empty price map,
leaves the baselines unchanged, saves nothing and notifies nobody; with
an empty configured symbol set the cycle additionally never invokes the
provider. -/
theorem run_once_abort_cases (config : EffectiveConfig)
    (provider : List String → Option (List (String × ℚ)))
    (baselines : Dict ℚ) (client : HomeAssistantClient) :
    (dedupFirst config.etf_symbols = [] →
        run_once config provider baselines = ⟨baselines, [], false, false⟩
        ∧ notifyCount client (run_once config provider baselines).alerts = 0)
  ∧ (provider (dedupFirst config.etf_symbols) = none →
        (run_once config provider baselines).baselines = baselines
        ∧ (run_once config provider baselines).saved = false
        ∧ (run_once config provider baselines).alerts = []
        ∧ notifyCount client (run_once config provider baselines).alerts = 0)
  ∧ (provider (dedupFirst config.etf_symbols) = some [] →
        (run_once config provider baselines).baselines = baselines
        ∧ (run_once config provider baselines).saved = false
        ∧ (run_once config provider baselines).alerts = []
        ∧ notifyCount client (run_once config provider baselines).alerts = 0) := by
  refine ⟨?_, ?_, ?_⟩
  · intro h
    have he : run_once config provider baselines = ⟨baselines, [], false, false⟩ := by
      simp [run_once, h]
    rw [he]
    exact ⟨rfl, by simp [notifyCount]⟩
  · intro h
    by_cases hs : dedupFirst config.etf_symbols = []
    · have he : run_once config provider baselines = ⟨baselines, [], false, false⟩ := by
        simp [run_once, hs]
      rw [he]
      exact ⟨rfl, rfl, rfl, by simp [notifyCount]⟩
    · have h1 : (dedupFirst config.etf_symbols).isEmpty = false := by
        cases hd : dedupFirst config.etf_symbols with
        | nil => exact absurd hd hs
        | cons a l => rfl
      have he : run_once config provider baselines = ⟨baselines, [], true, false⟩ := by
        simp [run_once, h1, h]
      rw [he]
      exact ⟨rfl, rfl, rfl, by simp [notifyCount]⟩
  · intro h
    by_cases hs : dedupFirst config.etf_symbols = []
    · have he : run_once config provider baselines = ⟨baselines, [], false, false⟩ := by
        simp [run_once, hs]
      rw [he]
      exact ⟨rfl, rfl, rfl, by simp [notifyCount]⟩
    · have h1 : (dedupFirst config.etf_symbols).isEmpty = false := by
        cases hd : dedupFirst config.etf_symbols with
        | nil => exact absurd hd hs
        | cons a l => rfl
      have he : run_once config provider baselines = ⟨baselines, [], true, false⟩ := by
        simp [run_once, h1, h]
      rw [he]
      exact ⟨rfl, rfl, rfl, by simp [notifyCount]⟩

/-- Witness for `run_once_abort_cases`: an empty symbol set yields an
untouched, unsaved, unnotified cycle with no fetch. -/
theorem run_once_abort_cases_witness :
    run_once ⟨[], 2⟩ (fun _ => none) [] = ⟨[], [], false, false⟩
    ∧ notifyCount ⟨"", "", ""⟩ (run_once ⟨[], 2⟩ (fun _ => none) []).alerts = 0 :=
  (run_once_abort_cases ⟨[], 2⟩ (fun _ => none) [] ⟨"", "", ""⟩).1 rfl

/-! Storage lemmas and claims C6, C7. -/

theorem Dict.get_append_of_none {α : Type} (d d' : Dict α) (k : String)
    (h : Dict.get d k = none) : Dict.get (d ++ d') k = Dict.get d' k := by
  induction d with
  | nil => rfl
  | cons kv rest ih =>
    obtain ⟨k₀, v₀⟩ := kv
    by_cases h0 : k₀ = k
    · simp [Dict.get, h0] at h
    · simp [Dict.get, h0] at h ⊢
      exact ih h

/-- The cleaning fold over purely numeric entries with distinct,
already-uppercase keys none of which is in the accumulator just appends
them. -/
theorem foldl_cleanStep_nums (l : List (String × ℚ)) (acc : Dict ℚ)
    (hupper : ∀ kv ∈ l, pyUpper kv.1 = kv.1)
    (hnodup : (l.map Prod.fst).Nodup)
    (hacc : ∀ kv ∈ l, Dict.get acc kv.1 = none) :
    List.foldl cleanStep acc (l.map (fun kv => (kv.1, Json.num kv.2))) = acc ++ l := by
  induction l generalizing acc with
  | nil => simp
  | cons kv rest ih =>
    obtain ⟨k, v⟩ := kv
    have hk : pyUpper k = k := hupper (k, v) (List.mem_cons_self _ _)
    have hknone : Dict.get acc k = none := hacc (k, v) (List.mem_cons_self _ _)
    have hnd := hnodup
    rw [List.map_cons, List.nodup_cons] at hnd
    have hstep : cleanStep acc (k, Json.num v) = acc ++ [(k, v)] := by
      rw [cleanStep]
      dsimp only [pyFloat]
      rw [hk, Dict.set_eq_append _ _ _ hknone]
    rw [List.map_cons, List.foldl_cons, hstep,
        ih _ (fun kv h => hupper kv (List.mem_cons_of_mem _ h)) hnd.2 ?_,
        List.append_assoc]
    · rfl
    · intro kv h
      have hne : k ≠ kv.1 := by
        intro he
        exact hnd.1 (he ▸ List.mem_map.mpr ⟨kv, h, rfl⟩)
      rw [Dict.get_append_of_none _ _ _ (hacc kv (List.mem_cons_of_mem _ h))]
      simp [Dict.get, hne]

/-- An entry set whose every candidate for key `K` fails float coercion
leaves `K` unseen through the cleaning fold. -/
theorem foldl_cleanStep_get_none (entries : List (String × Json)) (acc : Dict ℚ)
    (K : String)
    (hdrop : ∀ kv ∈ entries, pyUpper kv.1 = K → pyFloat kv.2 = none)
    (hacc : Dict.get acc K = none) :
    Dict.get (List.foldl cleanStep acc entries) K = none := by
  induction entries generalizing acc with
  | nil => exact hacc
  | cons kv rest ih =>
    rw [List.foldl_cons]
    refine ih _ (fun kv' h' hk => hdrop kv' (List.mem_cons_of_mem _ h') hk) ?_
    rw [cleanStep]
    cases hp : pyFloat kv.2 with
    | none => exact hacc
    | some q =>
      have hne : pyUpper kv.1 ≠ K := by
        intro he
        have h0 := hdrop kv (List.mem_cons_self _ _) he
        rw [hp] at h0
        cases h0
      rw [Dict.get_set_ne _ _ _ _ hne]
      exact hacc

/-- C7: Saving a valid baseline record (uppercase symbols, one entry per
symbol) and reloading it recovers exactly the same symbol-to-price
mapping. -/
theorem save_load_roundtrip (X : Dict ℚ)
    (hupper : ∀ kv ∈ X, pyUpper kv.1 = kv.1)
    (hnodup : (X.map Prod.fst).Nodup) :
    load_state (save_state X) = Except.ok X := by
  have h : load_state (save_state X)
      = Except.ok (cleanBaselines (X.map (fun kv => (kv.1, Json.num kv.2)))) := rfl
  rw [h, cleanBaselines, foldl_cleanStep_nums X [] hupper hnodup (fun kv _ => rfl)]
  rfl

/-- Witness for `save_load_roundtrip` on a two-symbol record. -/
theorem save_load_roundtrip_witness :
    load_state (save_state [("SWDA.MI", 100), ("VWCE.DE", 85)])
      = Except.ok [("SWDA.MI", (100 : ℚ)), ("VWCE.DE", 85)] :=
  save_load_roundtrip [("SWDA.MI", 100), ("VWCE.DE", 85)] (by decide) (by decide)

/-- C6 counterexample: a corrupt state file does not load as an empty
record — `json.load`'s decode error propagates out of `load_state`
uncaught. -/
theorem load_state_corrupt_raises :
    load_state FileState.corrupt = Except.error "JSONDecodeError"
    ∧ ∀ d : Dict ℚ, load_state FileState.corrupt ≠ Except.ok d := by
  refine ⟨rfl, ?_⟩
  intro d h
  exact Except.noConfusion h

/-- C6 (amended): `load_state` returns an empty record when the state
file is missing; a corrupt file raises the JSON decode error rather than
yielding an empty record; a parseable file whose `baselines` value is a
dict always loads successfully, and any entry whose value fails float
coercion is silently dropped — when every entry mapping to a symbol fails
coercion, that symbol stays unseen. -/
theorem load_state_amended :
    load_state FileState.missing = Except.ok []
  ∧ (∃ e, load_state FileState.corrupt = Except.error e)
  ∧ (∀ entries : List (String × Json),
       load_state (FileState.json (Json.obj [("baselines", Json.obj entries)]))
         = Except.ok (cleanBaselines entries))
  ∧ (∀ entries : List (String × Json), ∀ K : String,
       (∀ kv ∈ entries, pyUpper kv.1 = K → pyFloat kv.2 = none) →
       Dict.get (cleanBaselines entries) K = none) := by
  refine ⟨rfl, ⟨"JSONDecodeError", rfl⟩, fun entries => rfl, fun entries K hdrop => ?_⟩
  rw [cleanBaselines]
  exact foldl_cleanStep_get_none entries [] K hdrop rfl

/-- Witness for `load_state_amended`: the single entry `"a": null` fails
float coercion, so symbol A stays unseen. -/
theorem load_state_amended_witness :
    Dict.get (cleanBaselines [("a", Json.null)]) "A" = none :=
  load_state_amended.2.2.2 [("a", Json.null)] "A"
    (by
      intro kv h hk
      rw [List.mem_singleton] at h
      subst h
      rfl)

/-! Suffix-fallback lemmas and claim C8. -/

theorem suffixLoop_skip (fetcher : List String → Dict ℚ) (suffix : String)
    (rest : List String) (mapped : Dict ℚ) (symbols : List String)
    (h : (suffixLookup symbols suffix).isEmpty = true) :
    suffixLoop fetcher (suffix :: rest) mapped symbols
      = suffixLoop fetcher rest mapped symbols := by
  rw [suffixLoop]
  simp only [h, if_true]

theorem suffixLoop_go (fetcher : List String → Dict ℚ) (suffix : String)
    (rest : List String) (mapped : Dict ℚ) (symbols : List String)
    (h : (suffixLookup symbols suffix).isEmpty = false) :
    suffixLoop fetcher (suffix :: rest) mapped symbols =
      (let lookup := suffixLookup symbols suffix
       let fetched := fetcher (lookup.map Prod.snd)
       let mapped' := applyFetched fetched lookup mapped
       let remaining := symbols.filter (fun s => !(Dict.hasKey mapped' s))
       if remaining.isEmpty then (mapped', [lookup.map Prod.snd], [])
       else
         let r := suffixLoop fetcher rest mapped' remaining
         (r.1, lookup.map Prod.snd :: r.2.1, r.2.2)) := by
  rw [suffixLoop]
  simp only [h, Bool.false_eq_true, if_false]

theorem suffixLookup_snd (symbols : List String) (suffix : String) :
    (suffixLookup symbols suffix).map Prod.snd
      = (symbols.filter (fun s => !(s.data.contains '.'))).map (fun s => s ++ suffix) := by
  rw [suffixLookup, List.map_map]
  rfl

/-- A round with no dot-free missing symbol is skipped with the missing
set unchanged, so every later round is skipped too: the loop returns
untouched, with no query. -/
theorem suffixLoop_noCandidates (fetcher : List String → Dict ℚ)
    (suffixes : List String) (mapped : Dict ℚ) (symbols : List String)
    (hdot : symbols.filter (fun s => !(s.data.contains '.')) = []) :
    suffixLoop fetcher suffixes mapped symbols = (mapped, [], symbols) := by
  induction suffixes with
  | nil => rfl
  | cons suffix rest ih =>
    have hl : (suffixLookup symbols suffix).isEmpty = true := by
      rw [suffixLookup, hdot]
      rfl
    rw [suffixLoop_skip fetcher suffix rest mapped symbols hl, ih]

theorem Dict.hasKey_set {α : Type} (d : Dict α) (k s : String) (v : α) :
    Dict.hasKey (Dict.set d k v) s = ((k == s) || Dict.hasKey d s) := by
  by_cases h : k = s
  · subst h
    simp [Dict.hasKey, Dict.get_set_self]
  · simp [Dict.hasKey, Dict.get_set_ne _ _ _ _ h, h]

/-- Membership in the harvested dict: a key is present afterwards exactly
when it was present before, or some lookup pair for it had its
upper-cased candidate priced by the fetch. -/
theorem applyFetched_hasKey (fetched : Dict ℚ) (lookup : List (String × String))
    (mapped : Dict ℚ) (s : String) :
    Dict.hasKey (applyFetched fetched lookup mapped) s
      = (Dict.hasKey mapped s
          || lookup.any (fun kv => (kv.1 == s)
              && (Dict.get fetched (pyUpper kv.2)).isSome)) := by
  induction lookup generalizing mapped with
  | nil => simp [applyFetched]
  | cons kv rest ih =>
    obtain ⟨orig, cand⟩ := kv
    rw [applyFetched]
    by_cases hm : Dict.hasKey mapped orig
    · rw [if_pos hm, ih]
      simp only [List.any_cons]
      by_cases ho : orig = s
      · subst ho
        rw [hm]
        simp
      · have ho' : (orig == s) = false := by simp [ho]
        rw [ho']
        simp
    · rw [if_neg hm]
      cases hf : Dict.get fetched (pyUpper cand) with
      | none =>
        simp only [hf]
        rw [ih]
        simp [List.any_cons, hf]
      | some price =>
        simp only [hf]
        rw [ih, Dict.hasKey_set]
        simp only [List.any_cons, hf, Option.isSome_some, Bool.and_true]
        cases horig : (orig == s) <;>
          cases hmk : Dict.hasKey mapped s <;>
            cases hrest : rest.any (fun kv => (kv.1 == s)
              && (Dict.get fetched (pyUpper kv.2)).isSome) <;> rfl

theorem any_map_comp {α β : Type} (l : List α) (f : α → β) (p : β → Bool) :
    (l.map f).any p = l.any (fun a => p (f a)) := by
  induction l with
  | nil => rfl
  | cons a rest ih => simp [List.any_cons, ih]

/-- The still-missing list after a round equals the round's missing list
filtered to the symbols that carry a '.' or whose candidate the fetch did
not price, under the loop invariant that no missing symbol is already
mapped. -/
theorem remaining_eq_spec (fetcher : List String → Dict ℚ) (symbols : List String)
    (suffix : String) (mapped : Dict ℚ)
    (hinv : ∀ s ∈ symbols, Dict.hasKey mapped s = false) :
    symbols.filter (fun s => !(Dict.hasKey
        (applyFetched (fetcher ((suffixLookup symbols suffix).map Prod.snd))
          (suffixLookup symbols suffix) mapped) s))
      = symbols.filter (fun s => s.data.contains '.'
          || (Dict.get (fetcher ((symbols.filter (fun t => !(t.data.contains '.'))).map
                (fun t => t ++ suffix)))
              (pyUpper (s ++ suffix))).isNone) := by
  rw [suffixLookup_snd]
  apply List.filter_congr
  intro s hs
  rw [applyFetched_hasKey, hinv s hs, Bool.false_or]
  have hbool : ∀ a b : Bool, (a = true ↔ b = true) → a = b := by
    intro a b h
    cases a <;> cases b <;> simp_all
  have hany : (suffixLookup symbols suffix).any (fun kv => (kv.1 == s)
        && (Dict.get (fetcher ((symbols.filter (fun t => !(t.data.contains '.'))).map
              (fun t => t ++ suffix))) (pyUpper kv.2)).isSome)
      = ((!(s.data.contains '.'))
          && (Dict.get (fetcher ((symbols.filter (fun t => !(t.data.contains '.'))).map
                (fun t => t ++ suffix))) (pyUpper (s ++ suffix))).isSome) := by
    rw [suffixLookup, any_map_comp]
    apply hbool
    constructor
    · intro h
      obtain ⟨t, ht, hP⟩ := List.any_eq_true.mp h
      simp only [Bool.and_eq_true, beq_iff_eq] at hP
      obtain ⟨rfl, hP2⟩ := hP
      simp only [Bool.and_eq_true]
      exact ⟨(List.mem_filter.mp ht).2, hP2⟩
    · intro h
      simp only [Bool.and_eq_true] at h
      apply List.any_eq_true.mpr
      refine ⟨s, List.mem_filter.mpr ⟨hs, h.1⟩, ?_⟩
      simp only [Bool.and_eq_true, beq_iff_eq]
      exact ⟨trivial, h.2⟩
  rw [hany]
  cases hget : Dict.get (fetcher ((symbols.filter (fun t => !(t.data.contains '.'))).map
      (fun t => t ++ suffix))) (pyUpper (s ++ suffix)) <;>
    cases hdot : s.data.contains '.' <;> rfl

/-- The suffix loop realises the specification relation, given the loop
invariant that no current symbol is already mapped. -/
theorem suffixLoop_satisfies_spec (fetcher : List String → Dict ℚ)
    (suffixes : List String) (mapped : Dict ℚ) (symbols : List String)
    (hinv : ∀ s ∈ symbols, Dict.hasKey mapped s = false) :
    SuffixSpec fetcher suffixes symbols
      (suffixLoop fetcher suffixes mapped symbols).2.1
      (suffixLoop fetcher suffixes mapped symbols).2.2 := by
  induction suffixes generalizing mapped symbols with
  | nil => exact SuffixSpec.exhausted symbols
  | cons suffix rest ih =>
    by_cases hdot : symbols.filter (fun s => !(s.data.contains '.')) = []
    · rw [suffixLoop_noCandidates fetcher (suffix :: rest) mapped symbols hdot]
      exact SuffixSpec.noCandidates _ _ hdot
    · have hl : (suffixLookup symbols suffix).isEmpty = false := by
        rw [suffixLookup]
        cases hf : symbols.filter (fun s => !(s.data.contains '.')) with
        | nil => exact absurd hf hdot
        | cons a l => rfl
      rw [suffixLoop_go fetcher suffix rest mapped symbols hl]
      dsimp only
      rw [remaining_eq_spec fetcher symbols suffix mapped hinv]
      by_cases hr : symbols.filter (fun s => s.data.contains '.'
          || (Dict.get (fetcher ((symbols.filter (fun t => !(t.data.contains '.'))).map
                (fun t => t ++ suffix)))
              (pyUpper (s ++ suffix))).isNone) = []
      · rw [hr]
        simp only [List.isEmpty_nil, if_true]
        rw [suffixLookup_snd]
        exact SuffixSpec.lastQuery suffix rest symbols hdot hr
      · have hre : (symbols.filter (fun s => s.data.contains '.'
            || (Dict.get (fetcher ((symbols.filter (fun t => !(t.data.contains '.'))).map
                  (fun t => t ++ suffix)))
                (pyUpper (s ++ suffix))).isNone)).isEmpty = false := by
          cases hR : symbols.filter (fun s => s.data.contains '.'
              || (Dict.get (fetcher ((symbols.filter (fun t => !(t.data.contains '.'))).map
                    (fun t => t ++ suffix)))
                  (pyUpper (s ++ suffix))).isNone) with
          | nil => exact absurd hR hr
          | cons a l => rfl
        rw [hre]
        simp only [Bool.false_eq_true, if_false]
        rw [suffixLookup_snd]
        have hinv' : ∀ s ∈ symbols.filter (fun s => s.data.contains '.'
            || (Dict.get (fetcher ((symbols.filter (fun t => !(t.data.contains '.'))).map
                  (fun t => t ++ suffix)))
                (pyUpper (s ++ suffix))).isNone),
            Dict.hasKey (applyFetched
              (fetcher ((suffixLookup symbols suffix).map Prod.snd))
              (suffixLookup symbols suffix) mapped) s = false := by
          intro s hsR
          rw [← remaining_eq_spec fetcher symbols suffix mapped hinv] at hsR
          have h2 := (List.mem_filter.mp hsR).2
          simpa using h2
        rw [suffixLookup_snd] at hinv'
        exact SuffixSpec.nextQuery suffix rest symbols _ _ hdot hr (ih _ _ hinv')

/-- The specification relation is a partial function of the suffix list
and the missing list: it determines the query trace and the final missing
list uniquely. -/
theorem SuffixSpec_unique (fetcher : List String → Dict ℚ)
    (suffixes missing : List String) (q1 : List (List String)) (f1 : List String)
    (h1 : SuffixSpec fetcher suffixes missing q1 f1) :
    ∀ q2 f2, SuffixSpec fetcher suffixes missing q2 f2 → q1 = q2 ∧ f1 = f2 := by
  induction h1 with
  | exhausted m =>
    intro q2 f2 h2
    cases h2 with
    | exhausted _ => exact ⟨rfl, rfl⟩
    | noCandidates _ _ _ => exact ⟨rfl, rfl⟩
  | noCandidates sfx m hdot =>
    intro q2 f2 h2
    cases h2 with
    | exhausted _ => exact ⟨rfl, rfl⟩
    | noCandidates _ _ _ => exact ⟨rfl, rfl⟩
    | lastQuery _ _ _ hcand _ => exact absurd hdot hcand
    | nextQuery _ _ _ _ _ hcand _ _ => exact absurd hdot hcand
  | lastQuery suffix rest m hcand hresolved =>
    intro q2 f2 h2
    cases h2 with
    | noCandidates _ _ hdot => exact absurd hdot hcand
    | lastQuery _ _ _ _ _ => exact ⟨rfl, rfl⟩
    | nextQuery _ _ _ _ _ _ hleft _ => exact absurd hresolved hleft
  | nextQuery suffix rest m queries final hcand hleft hrest ih =>
    intro q2 f2 h2
    cases h2 with
    | noCandidates _ _ hdot => exact absurd hdot hcand
    | lastQuery _ _ _ _ hresolved => exact absurd hresolved hleft
    | nextQuery _ _ _ queries2 final2 _ _ hrest2 =>
      obtain ⟨hq, hf⟩ := ih _ _ hrest2
      exact ⟨by rw [hq], hf⟩

/-- C8: The exchange-suffix fallback follows the claimed procedure
exactly: its fetcher-query trace and final still-missing list satisfy the
specification relation `SuffixSpec` — each suffix of the list is tried in
the given order, at most once, against all still-missing symbols of its
round that do not already contain a '.' (a symbol already carrying an
exchange suffix is never extended), stopping as soon as every symbol is
resolved or the suffix list is exhausted — and the specification
determines that trace uniquely, so the fallback's behaviour is exactly
the specified one. -/
theorem fetch_suffixes_spec (symbols suffixes : List String)
    (fetcher : List String → Dict ℚ) :
    SuffixSpec fetcher suffixes symbols
      (_fetch_prices_with_suffixes symbols suffixes fetcher).2.1
      (_fetch_prices_with_suffixes symbols suffixes fetcher).2.2
    ∧ (∀ queries final, SuffixSpec fetcher suffixes symbols queries final →
        queries = (_fetch_prices_with_suffixes symbols suffixes fetcher).2.1
        ∧ final = (_fetch_prices_with_suffixes symbols suffixes fetcher).2.2) := by
  have hmain : SuffixSpec fetcher suffixes symbols
      (_fetch_prices_with_suffixes symbols suffixes fetcher).2.1
      (_fetch_prices_with_suffixes symbols suffixes fetcher).2.2 := by
    rw [_fetch_prices_with_suffixes]
    by_cases hs : symbols.isEmpty
    · have hnil : symbols = [] := by
        cases symbols with
        | nil => rfl
        | cons a l => cases hs
      subst hnil
      exact SuffixSpec.noCandidates suffixes [] rfl
    · rw [if_neg hs]
      exact suffixLoop_satisfies_spec fetcher suffixes [] symbols (fun s _ => rfl)
  refine ⟨hmain, fun queries final h => ?_⟩
  exact SuffixSpec_unique fetcher suffixes symbols queries final h _ _ hmain

/-- Witness for `fetch_suffixes_spec`: with symbols AAA and BBB.MI and
suffix .MI, where the fetcher prices AAA.MI, the loop queries exactly
AAA.MI (never a candidate for the dotted BBB.MI) and ends with BBB.MI
still missing — and the specification relation holds of exactly that
concretely computed trace. -/
theorem fetch_suffixes_spec_witness :
    SuffixSpec (fun _ => [("AAA.MI", (5 : ℚ))]) [".MI"] ["AAA", "BBB.MI"]
      [["AAA.MI"]] ["BBB.MI"] := by
  have h := (fetch_suffixes_spec ["AAA", "BBB.MI"] [".MI"]
      (fun _ => [("AAA.MI", (5 : ℚ))])).1
  have e1 : (_fetch_prices_with_suffixes ["AAA", "BBB.MI"] [".MI"]
      (fun _ => [("AAA.MI", (5 : ℚ))])).2.1 = [["AAA.MI"]] := by decide
  have e2 : (_fetch_prices_with_suffixes ["AAA", "BBB.MI"] [".MI"]
      (fun _ => [("AAA.MI", (5 : ℚ))])).2.2 = ["BBB.MI"] := by decide
  rw [e1, e2] at h
  exact h

/-! Service-id parsing lemmas and claim C9. -/

theorem splitAtFirst_of_not_mem (sep : Char) (l : List Char) (h : sep ∉ l) :
    splitAtFirst sep l = none := by
  induction l with
  | nil => rfl
  | cons c rest ih =>
    have hc : c ≠ sep := by
      intro he
      exact h (he ▸ List.mem_cons_self _ _)
    rw [splitAtFirst, if_neg hc, ih (fun hm => h (List.mem_cons_of_mem _ hm))]

theorem splitAtFirst_of_mem (sep : Char) (l : List Char) (h : sep ∈ l) :
    ∃ a b, splitAtFirst sep l = some (a, b) := by
  induction l with
  | nil => cases h
  | cons c rest ih =>
    by_cases hc : c = sep
    · exact ⟨[], rest, by rw [splitAtFirst, if_pos hc]⟩
    · have hm : sep ∈ rest := by
        rcases List.mem_cons.mp h with he | hm
        · exact absurd he.symm hc
        · exact hm
      obtain ⟨a, b, hab⟩ := ih hm
      exact ⟨c :: a, b, by rw [splitAtFirst, if_neg hc, hab]⟩

theorem splitAtFirst_append (sep : Char) (pre post : List Char) (h : sep ∉ pre) :
    splitAtFirst sep (pre ++ sep :: post) = some (pre, post) := by
  induction pre with
  | nil => rw [List.nil_append, splitAtFirst, if_pos rfl]
  | cons c rest ih =>
    have hc : c ≠ sep := by
      intro he
      exact h (he ▸ List.mem_cons_self _ _)
    rw [List.cons_append, splitAtFirst, if_neg hc,
      ih (fun hm => h (List.mem_cons_of_mem _ hm))]

/-- C9: `_split_service` accepts both the domain/service form (splitting
at the first '/') and the domain.service form (splitting at the first '.'
when no '/' occurs), and raises exactly when the input contains neither
'/' nor '.'. -/
theorem split_service_spec (service : String) :
    ((∃ e, _split_service service = Except.error e)
        ↔ ('/' ∉ service.data ∧ '.' ∉ service.data))
  ∧ (∀ pre post : List Char, service.data = pre ++ '/' :: post → '/' ∉ pre →
      _split_service service = Except.ok (String.mk pre, String.mk post))
  ∧ ('/' ∉ service.data → ∀ pre post : List Char,
      service.data = pre ++ '.' :: post → '.' ∉ pre →
      _split_service service = Except.ok (String.mk pre, String.mk post)) := by
  refine ⟨⟨?_, ?_⟩, ?_, ?_⟩
  · rintro ⟨e, he⟩
    rw [_split_service] at he
    cases h1 : splitAtFirst '/' service.data with
    | some pr =>
      rw [h1] at he
      cases he
    | none =>
      rw [h1] at he
      cases h2 : splitAtFirst '.' service.data with
      | some pr =>
        rw [h2] at he
        cases he
      | none =>
        constructor
        · intro hm
          obtain ⟨a, b, hab⟩ := splitAtFirst_of_mem '/' service.data hm
          rw [hab] at h1
          cases h1
        · intro hm
          obtain ⟨a, b, hab⟩ := splitAtFirst_of_mem '.' service.data hm
          rw [hab] at h2
          cases h2
  · rintro ⟨h1, h2⟩
    refine ⟨"ValueError", ?_⟩
    rw [_split_service, splitAtFirst_of_not_mem '/' service.data h1,
      splitAtFirst_of_not_mem '.' service.data h2]
  · intro pre post hdata hpre
    rw [_split_service, hdata, splitAtFirst_append '/' pre post hpre]
  · intro h1 pre post hdata hpre
    rw [_split_service, splitAtFirst_of_not_mem '/' service.data h1, hdata,
      splitAtFirst_append '.' pre post hpre]

/-- Witness for `split_service_spec`: both separator forms of the same
service id parse to the same pair. -/
theorem split_service_spec_witness :
    _split_service "notify/mobile_app_phone"
        = Except.ok ("notify", "mobile_app_phone")
    ∧ _split_service "notify.mobile_app_phone"
        = Except.ok ("notify", "mobile_app_phone") := by
  constructor
  · exact (split_service_spec "notify/mobile_app_phone").2.1
      "notify".data "mobile_app_phone".data (by decide) (by decide)
  · exact (split_service_spec "notify.mobile_app_phone").2.2
      (by decide) "notify".data "mobile_app_phone".data (by decide) (by decide)

/-! Heap lemmas and claim C10. -/

theorem heapGet_lt_freshAddr (h : Heap) (a : Nat) (d : Dict ℚ)
    (hg : heapGet h a = some d) : a < freshAddr h := by
  induction h with
  | nil => cases hg
  | cons ad rest ih =>
    obtain ⟨a', d'⟩ := ad
    rw [freshAddr, List.map_cons, List.foldr_cons, Nat.lt_succ_iff]
    by_cases ha : a' = a
    · subst ha
      exact Nat.le_max_left _ _
    · rw [heapGet, if_neg ha] at hg
      have := ih hg
      rw [freshAddr, Nat.lt_succ_iff] at this
      exact le_trans this (Nat.le_max_right _ _)

theorem heapGet_heapSet_self (h : Heap) (a : Nat) (d : Dict ℚ) :
    heapGet (heapSet h a d) a = some d := by
  induction h with
  | nil => simp [heapSet, heapGet]
  | cons ad rest ih =>
    obtain ⟨a', d'⟩ := ad
    by_cases ha : a' = a <;> simp [heapSet, heapGet, ha, ih]

theorem heapGet_heapSet_ne (h : Heap) (a a' : Nat) (d : Dict ℚ)
    (hne : a ≠ a') : heapGet (heapSet h a d) a' = heapGet h a' := by
  induction h with
  | nil => simp [heapSet, heapGet, hne]
  | cons ad rest ih =>
    obtain ⟨a₀, d₀⟩ := ad
    by_cases h0 : a₀ = a
    · subst h0
      simp [heapSet, heapGet, hne]
    · simp [heapSet, heapGet, h0, ih]

/-- C10: Reading the `state` property of a live monitor object yields a
fresh dict object, distinct from the internal one, holding a copy of the
internal baselines; overwriting the returned object afterwards leaves the
monitor's internal baseline record unchanged. -/
theorem state_snapshot_fresh_copy (h : Heap) (m : Nat) (d d' : Dict ℚ)
    (hm : heapGet h m = some d) :
    heapGet (state_snapshot h m).1 (state_snapshot h m).2 = some d
    ∧ (state_snapshot h m).2 ≠ m
    ∧ heapGet (heapSet (state_snapshot h m).1 (state_snapshot h m).2 d') m
        = some d := by
  have hfresh : m < freshAddr h := heapGet_lt_freshAddr h m d hm
  have hne : freshAddr h ≠ m := by
    intro he
    exact lt_irrefl m (he ▸ hfresh)
  rw [state_snapshot, hm]
  dsimp only
  refine ⟨heapGet_heapSet_self _ _ _, hne, ?_⟩
  rw [heapGet_heapSet_ne _ _ _ _ hne, heapGet_heapSet_ne _ _ _ _ hne]
  exact hm

/-- Witness for `state_snapshot_fresh_copy` on a one-object heap. -/
theorem state_snapshot_fresh_copy_witness :
    heapGet (state_snapshot [(0, [("A", 1)])] 0).1
        (state_snapshot [(0, [("A", 1)])] 0).2 = some [("A", (1 : ℚ))]
    ∧ (state_snapshot [(0, [("A", 1)])] 0).2 ≠ 0
    ∧ heapGet
        (heapSet (state_snapshot [(0, [("A", 1)])] 0).1
          (state_snapshot [(0, [("A", 1)])] 0).2 [])
        0 = some [("A", (1 : ℚ))] :=
  state_snapshot_fresh_copy [(0, [("A", 1)])] 0 [("A", 1)] [] rfl

end EtfChecker
